import Mathlib

/-!
Verification of the `ents` entity/edge storage layer.

The definitions below are a shallow embedding of the Rust sources:
  * `make_edge_key` / `parse_edge_key` / `find_edges_internal` embed
    `src/ents-heed/src/lib.rs`;
  * the `Sqlite*` definitions embed the SQL statements issued by
    `src/ents-sqlite/src/lib.rs` (with SQLite's documented comparison and
    integer-affinity semantics made explicit);
  * the `Store`/`Txn*` definitions embed the transaction orchestration shared
    by both backends (`Txn::update`, `Txn::delete`, `Txn::create`,
    `Txn::create_edge`).
Machine integers (`u64`, `i64`) are modelled as `Nat`/`Int` with explicit
bounds and wrap-around where the code casts.
-/

/-- Comparison of two unsigned integers, as Rust `u64::cmp`. -/
def natCmp (a b : Nat) : Ordering :=
  if a < b then .lt else if b < a then .gt else .eq

/-- Comparison of two signed integers, as SQLite INTEGER comparison. -/
def intCmp (a b : Int) : Ordering :=
  if a < b then .lt else if b < a then .gt else .eq

/-- Lexicographic byte-string comparison, as Rust `<[u8] as Ord>::cmp` and
SQLite BLOB (memcmp) comparison: a strict prefix is smaller. -/
def bytesCmp : List Nat → List Nat → Ordering
  | [], [] => .eq
  | [], _ :: _ => .lt
  | _ :: _, [] => .gt
  | a :: as', b :: bs' =>
    if a < b then .lt else if b < a then .gt else bytesCmp as' bs'

/-- Big-endian byte expansion of the low `w` bytes of `n`
(`byteorder::BigEndian::write_u64` when `w = 8` and `n < 2^64`). -/
def beBytes : Nat → Nat → List Nat
  | 0, _ => []
  | w + 1, n => (n / 256 ^ w % 256) :: beBytes w n

/-- 8-byte big-endian encoding of a `u64` (`BigEndian::write_u64`). -/
def be64 (n : Nat) : List Nat := beBytes 8 n

/-- Big-endian value of a byte list (`BigEndian::read_u64` on 8 bytes). -/
def fromBE : List Nat → Nat
  | [] => 0
  | d :: rest => d * 256 ^ rest.length + fromBE rest

/-- `make_edge_key` from `src/ents-heed/src/lib.rs`: 8-byte big-endian
source, raw sort_key bytes, 8-byte big-endian dest. -/
def make_edge_key (source : Nat) (sort_key : List Nat) (dest : Nat) : List Nat :=
  be64 source ++ sort_key ++ be64 dest

/-- `parse_edge_key` from `src/ents-heed/src/lib.rs`: first 8 bytes are the
source, last 8 bytes the dest, the remainder the sort_key. -/
def parse_edge_key (key : List Nat) : Nat × List Nat × Nat :=
  (fromBE (key.take 8),
   (key.drop 8).take (key.length - 16),
   fromBE (key.drop (key.length - 8)))

/-- Ordering of edge triples by `(source, sort_key, dest)`: source and dest
as unsigned integers, sort_key as a byte string. -/
def tripleCmp (s₁ : Nat) (k₁ : List Nat) (d₁ : Nat)
    (s₂ : Nat) (k₂ : List Nat) (d₂ : Nat) : Ordering :=
  ((natCmp s₁ s₂).then (bytesCmp k₁ k₂)).then (natCmp d₁ d₂)

theorem Ordering.then_of_ne_eq {o x : Ordering} (h : o ≠ .eq) : o.then x = o := by
  cases o <;> simp_all [Ordering.then]

theorem bytesCmp_refl (l : List Nat) : bytesCmp l l = .eq := by
  induction l with
  | nil => rfl
  | cons a as ih => simp [bytesCmp, ih]

theorem bytesCmp_eq_iff {l₁ l₂ : List Nat} : bytesCmp l₁ l₂ = .eq ↔ l₁ = l₂ := by
  constructor
  · intro h
    induction l₁ generalizing l₂ with
    | nil => cases l₂ with
      | nil => rfl
      | cons b bs => simp [bytesCmp] at h
    | cons a as ih =>
      cases l₂ with
      | nil => simp [bytesCmp] at h
      | cons b bs =>
        by_cases hab : a < b
        · simp [bytesCmp, hab] at h
        · by_cases hba : b < a
          · simp [bytesCmp, hab, hba] at h
          · have : a = b := by omega
            subst this
            simp [bytesCmp] at h
            exact congrArg (a :: ·) (ih h)
  · intro h; subst h; exact bytesCmp_refl l₁

theorem bytesCmp_append {a b : List Nat} (c d : List Nat)
    (h : a.length = b.length) :
    bytesCmp (a ++ c) (b ++ d) = (bytesCmp a b).then (bytesCmp c d) := by
  induction a generalizing b with
  | nil =>
    cases b with
    | nil => simp [bytesCmp, Ordering.then]
    | cons x xs => simp at h
  | cons x xs ih =>
    cases b with
    | nil => simp at h
    | cons y ys =>
      simp only [List.length_cons, Nat.add_right_cancel_iff] at h
      by_cases hxy : x < y
      · simp [bytesCmp, hxy, Ordering.then]
      · by_cases hyx : y < x
        · simp [bytesCmp, hxy, hyx, Ordering.then]
        · simp [bytesCmp, hxy, hyx, ih h]

theorem bytesCmp_append_of_no_overlap {a b : List Nat} (c d : List Nat)
    (h₁ : ¬ a <+: b) (h₂ : ¬ b <+: a) :
    bytesCmp (a ++ c) (b ++ d) = bytesCmp a b := by
  induction a generalizing b with
  | nil => exact absurd List.nil_prefix h₁
  | cons x xs ih =>
    cases b with
    | nil => exact absurd List.nil_prefix h₂
    | cons y ys =>
      by_cases hxy : x < y
      · simp [bytesCmp, hxy]
      · by_cases hyx : y < x
        · simp [bytesCmp, hxy, hyx]
        · have hxey : x = y := by omega
          subst hxey
          have h₁' : ¬ xs <+: ys := fun hp => h₁ (List.cons_prefix_cons.mpr ⟨rfl, hp⟩)
          have h₂' : ¬ ys <+: xs := fun hp => h₂ (List.cons_prefix_cons.mpr ⟨rfl, hp⟩)
          simp [bytesCmp, ih h₁' h₂']

theorem beBytes_length (w n : Nat) : (beBytes w n).length = w := by
  induction w generalizing n with
  | zero => rfl
  | succ w ih => simp [beBytes, ih]

theorem fromBE_beBytes (w n : Nat) : fromBE (beBytes w n) = n % 256 ^ w := by
  induction w generalizing n with
  | zero => simp [beBytes, fromBE, Nat.mod_one]
  | succ w ih =>
    simp only [beBytes, fromBE, beBytes_length, ih]
    rw [pow_succ, Nat.div_mod_eq_mod_mul_div,
      ← Nat.mod_mod_of_dvd n (dvd_mul_right (256 ^ w) 256)]
    exact Nat.div_add_mod' _ _

theorem beBytes_digit_lt (w n : Nat) : ∀ d ∈ beBytes w n, d < 256 := by
  induction w generalizing n with
  | zero => intro d hd; simp [beBytes] at hd
  | succ w ih =>
    intro d hd
    simp only [beBytes, List.mem_cons] at hd
    rcases hd with h | h
    · subst h; exact Nat.mod_lt _ (by norm_num)
    · exact ih n d h

theorem fromBE_lt {l : List Nat} (h : ∀ d ∈ l, d < 256) :
    fromBE l < 256 ^ l.length := by
  induction l with
  | nil => simp [fromBE]
  | cons d rest ih =>
    have hd : d < 256 := h d (List.mem_cons_self d rest)
    have hrest : fromBE rest < 256 ^ rest.length :=
      ih fun x hx => h x (List.mem_cons_of_mem d hx)
    simp only [fromBE, List.length_cons, pow_succ]
    calc d * 256 ^ rest.length + fromBE rest
        < (d + 1) * 256 ^ rest.length := by nlinarith
      _ ≤ 256 ^ rest.length * 256 := by nlinarith

theorem bytesCmp_digits {l₁ l₂ : List Nat} (hlen : l₁.length = l₂.length)
    (h₁ : ∀ d ∈ l₁, d < 256) (h₂ : ∀ d ∈ l₂, d < 256) :
    bytesCmp l₁ l₂ = natCmp (fromBE l₁) (fromBE l₂) := by
  induction l₁ generalizing l₂ with
  | nil =>
    cases l₂ with
    | nil => rfl
    | cons b bs => simp at hlen
  | cons a as ih =>
    cases l₂ with
    | nil => simp at hlen
    | cons b bs =>
      simp only [List.length_cons, Nat.add_right_cancel_iff] at hlen
      have hx : fromBE as < 256 ^ as.length :=
        fromBE_lt fun x hx => h₁ x (List.mem_cons_of_mem a hx)
      have hy : fromBE bs < 256 ^ bs.length :=
        fromBE_lt fun x hx => h₂ x (List.mem_cons_of_mem b hx)
    -- the heads weigh a full power of 256 more than any tail value
      rw [← hlen] at hy
      by_cases hab : a < b
      · have : fromBE (a :: as) < fromBE (b :: bs) := by
          simp only [fromBE, ← hlen]
          nlinarith [pow_pos (show (0:Nat) < 256 by norm_num) as.length]
        simp [bytesCmp, natCmp, hab, this]
      · by_cases hba : b < a
        · have : fromBE (b :: bs) < fromBE (a :: as) := by
            simp only [fromBE, ← hlen]
            nlinarith [pow_pos (show (0:Nat) < 256 by norm_num) as.length]
          simp [bytesCmp, natCmp, hab, hba, this, Nat.not_lt_of_lt this]
        · have hae : a = b := by omega
          subst hae
          have heq :
              natCmp (fromBE (a :: as)) (fromBE (a :: bs)) =
                natCmp (fromBE as) (fromBE bs) := by
            simp only [fromBE, ← hlen, natCmp]
            rcases Nat.lt_trichotomy (fromBE as) (fromBE bs) with h | h | h <;>
              simp [h] <;> omega
          rw [heq]
          simp only [bytesCmp, if_neg hab, if_neg hba]
          exact ih hlen (fun x hx => h₁ x (List.mem_cons_of_mem a hx))
            (fun x hx => h₂ x (List.mem_cons_of_mem a hx))

theorem be64_length (n : Nat) : (be64 n).length = 8 := beBytes_length 8 n

theorem fromBE_be64 {n : Nat} (h : n < 2 ^ 64) : fromBE (be64 n) = n := by
  have : (256 : Nat) ^ 8 = 2 ^ 64 := by norm_num
  rw [be64, fromBE_beBytes, this, Nat.mod_eq_of_lt h]

theorem bytesCmp_be64 {a b : Nat} (ha : a < 2 ^ 64) (hb : b < 2 ^ 64) :
    bytesCmp (be64 a) (be64 b) = natCmp a b := by
  have h := bytesCmp_digits
    (show (be64 a).length = (be64 b).length by rw [be64_length, be64_length])
    (beBytes_digit_lt 8 a) (beBytes_digit_lt 8 b)
  rw [h, fromBE_be64 ha, fromBE_be64 hb]

theorem natCmp_refl (a : Nat) : natCmp a a = .eq := by simp [natCmp]

theorem natCmp_eq_iff {a b : Nat} : natCmp a b = .eq ↔ a = b := by
  unfold natCmp
  rcases Nat.lt_trichotomy a b with h | h | h <;> simp [h] <;> omega

/-- C1 (amended): the composite-key encoding is order-preserving for all
pairs of triples in which equal sources never come with one sort_key being a
strict prefix of the other (in particular whenever the sort_keys have equal
length, as in the spec's example chain). -/
theorem make_edge_key_order_preserving
    (s₁ s₂ d₁ d₂ : Nat) (k₁ k₂ : List Nat)
    (hs₁ : s₁ < 2 ^ 64) (hs₂ : s₂ < 2 ^ 64)
    (hd₁ : d₁ < 2 ^ 64) (hd₂ : d₂ < 2 ^ 64)
    (hk : s₁ = s₂ → (k₁ <+: k₂ ∨ k₂ <+: k₁) → k₁ = k₂) :
    bytesCmp (make_edge_key s₁ k₁ d₁) (make_edge_key s₂ k₂ d₂) =
      tripleCmp s₁ k₁ d₁ s₂ k₂ d₂ := by
  unfold make_edge_key tripleCmp
  rw [List.append_assoc, List.append_assoc,
    bytesCmp_append _ _ (show (be64 s₁).length = (be64 s₂).length by
      rw [be64_length, be64_length]),
    bytesCmp_be64 hs₁ hs₂]
  by_cases hs : s₁ = s₂
  · subst hs
    rw [natCmp_refl]
    show bytesCmp (k₁ ++ be64 d₁) (k₂ ++ be64 d₂) =
      (bytesCmp k₁ k₂).then (natCmp d₁ d₂)
    by_cases hpre : k₁ <+: k₂ ∨ k₂ <+: k₁
    · have hke : k₁ = k₂ := hk rfl hpre
      subst hke
      rw [bytesCmp_append _ _ rfl, bytesCmp_refl, bytesCmp_be64 hd₁ hd₂]
    · push_neg at hpre
      rw [bytesCmp_append_of_no_overlap _ _ hpre.1 hpre.2]
      have hne : bytesCmp k₁ k₂ ≠ .eq := fun he =>
        hpre.1 (bytesCmp_eq_iff.mp he ▸ List.prefix_refl k₂)
      rw [Ordering.then_of_ne_eq hne]
  · have hne : natCmp s₁ s₂ ≠ .eq := fun he => hs (natCmp_eq_iff.mp he)
    rw [Ordering.then_of_ne_eq hne, Ordering.then_of_ne_eq hne,
      Ordering.then_of_ne_eq hne]

/-- C1 counterexample: with equal sources and one sort_key a strict prefix of
the other, the byte order of the encoded keys contradicts the triple order:
`(1, [0x61], 0x63 << 56)` encodes above `(1, [0x61,0x62], 0)` although the
triple is below it. -/
theorem make_edge_key_order_counterexample :
    bytesCmp (make_edge_key 1 [97] (99 * 2 ^ 56)) (make_edge_key 1 [97, 98] 0) =
        .gt ∧
      tripleCmp 1 [97] (99 * 2 ^ 56) 1 [97, 98] 0 = .lt := by
  constructor <;> decide

theorem make_edge_key_order_preserving_witness :
    bytesCmp (make_edge_key 1 [97] 10) (make_edge_key 2 [97, 98] 20) =
      tripleCmp 1 [97] 10 2 [97, 98] 20 :=
  make_edge_key_order_preserving 1 2 10 20 [97] [97, 98]
    (by norm_num) (by norm_num) (by norm_num) (by norm_num)
    (fun h => absurd h (by norm_num))

/-- C2: decoding the encoded composite key returns exactly the original
triple, for every `u64` source and dest and every byte string sort_key
(empty or arbitrary binary included). -/
theorem parse_make_edge_key (source dest : Nat) (sort_key : List Nat)
    (hs : source < 2 ^ 64) (hd : dest < 2 ^ 64) :
    parse_edge_key (make_edge_key source sort_key dest) =
      (source, sort_key, dest) := by
  have hlen : (make_edge_key source sort_key dest).length =
      16 + sort_key.length := by
    simp only [make_edge_key, List.length_append, be64_length]
    omega
  have h₁ : (make_edge_key source sort_key dest).take 8 = be64 source := by
    rw [make_edge_key, List.append_assoc, List.take_left' (be64_length source)]
  have h₂ : (make_edge_key source sort_key dest).drop 8 =
      sort_key ++ be64 dest := by
    rw [make_edge_key, List.append_assoc, List.drop_left' (be64_length source)]
  have h₃ : (make_edge_key source sort_key dest).drop
      ((make_edge_key source sort_key dest).length - 8) = be64 dest := by
    rw [hlen, make_edge_key]
    exact List.drop_left' (by simp [be64_length]; omega)
  unfold parse_edge_key
  rw [h₁, h₂, h₃, hlen, fromBE_be64 hs, fromBE_be64 hd,
    List.take_left' (show sort_key.length = 16 + sort_key.length - 16 by omega)]

theorem parse_make_edge_key_witness :
    parse_edge_key (make_edge_key 1 [0, 255] 2) = (1, [0, 255], 2) :=
  parse_make_edge_key 1 2 [0, 255] (by norm_num) (by norm_num)

/-- A stored entity record: its serialized payload plus the fields the
storage layer itself reads (`id`, `last_updated`). `data` stands for the
remaining serialized fields, which the layer treats as opaque. -/
structure EntData where
  id : Nat
  last_updated : Nat
  data : String
deriving DecidableEq

/-- An edge triple (`EdgeValue` / `Edge` in `src/ents/src`): the triple is
the whole identity of the edge. -/
structure Edge where
  source : Nat
  sort_key : List Nat
  dest : Nat
deriving DecidableEq

/-- The state a transaction acts on: the `entities` keyspace (id to record)
and the `edges` keyspace. Stored edge keys decode bijectively back to their
triples (the round-trip of the codec above), so edges are modelled as
triples. -/
structure Store where
  entities : List (Nat × EntData)
  edges : List Edge
deriving DecidableEq

/-- `Transactional::get`: look up the record by id and populate its `id`
field from the key, as both backends do after decoding. -/
def Txn.get (st : Store) (i : Nat) : Option EntData :=
  match st.entities.find? (fun p => p.1 == i) with
  | some p => some { p.2 with id := i }
  | none => none

/-- An LMDB `put` on the entities keyspace: overwrite the value at the key. -/
def putEnt (st : Store) (i : Nat) (e : EntData) : Store :=
  { st with entities := (i, e) :: st.entities.filter (fun p => p.1 != i) }

/-- An LMDB `put` on the edges keyspace: keys form a set, a duplicate put
overwrites in place. -/
def insertEdge (st : Store) (e : Edge) : Store :=
  if e ∈ st.edges then st else { st with edges := st.edges ++ [e] }

/-- `Txn::delete_edge`: delete the composite key of the triple. -/
def removeEdge (st : Store) (e : Edge) : Store :=
  { st with edges := st.edges.filter (fun x => x != e) }

/-- `Txn::create_edge` (heed backend): a plain `put` of the encoded key. -/
def Txn.create_edge (st : Store) (e : Edge) : Store := insertEdge st e

/-- `Txn::update_internal` from `src/ents-heed/src/lib.rs`: optional CAS
check against the stored `last_updated`, then an overwriting put. Returns
the new state and the boolean result. -/
def update_internal (st : Store) (i : Nat) (e : EntData)
    (expected : Option Nat) : Store × Bool :=
  match expected with
  | some exp =>
    match Txn.get st i with
    | some cur =>
      if cur.last_updated ≠ exp then (st, false) else (putEnt st i e, true)
    | none => (st, false)
  | none => (putEnt st i e, true)

/-- `Txn::update` from `src/ents-heed/src/lib.rs` (the sqlite backend runs
the same orchestration): capture the draft and version before the mutation,
mutate, mark updated, recompute the draft; skip all edge writes when the
drafts are equal; otherwise resolve both drafts (`check`, which may fail:
`none`), CAS-write the entity, and on success delete the old edges and
insert the new ones. `δ` is the provider's draft type. -/
def Txn.update (δ : Type) [DecidableEq δ]
    (draftFn : EntData → δ) (check : δ → Store → Option (List Edge))
    (markUpdated : EntData → EntData)
    (st : Store) (ent : EntData) (mutator : EntData → EntData) :
    Option (Store × Bool) :=
  let draft0 := draftFn ent
  let expected := ent.last_updated
  let ent1 := markUpdated (mutator ent)
  let draft1 := draftFn ent1
  if draft0 = draft1 then
    some (update_internal st ent1.id ent1 (some expected))
  else
    match check draft0 st, check draft1 st with
    | some edge0, some edge1 =>
      let r := update_internal st ent1.id ent1 (some expected)
      if r.2 then
        some (edge1.foldl insertEdge (edge0.foldl removeEdge r.1), true)
      else
        some (r.1, false)
    | _, _ => none

/-- `Txn::delete` (heed backend): sweep every edge whose parsed `dest`
equals the id, then delete the entity record. -/
def Txn.delete (st : Store) (i : Nat) : Store :=
  { entities := (st.entities.filter (fun p => p.1 != i)),
    edges := st.edges.filter (fun e => e.dest != i) }

/-- `Txn::create` (both backends): insert the record under the fresh id,
set the id on the in-memory entity, then `setup_edges` (resolve the draft
against the transaction and insert each resulting edge). On a draft error
the call returns the error with the entity insert already performed. -/
def Txn.create (st : Store) (newId : Nat) (ent : EntData)
    (check : Store → Option (List Edge)) : Option Nat × Store :=
  let st1 := putEnt st newId ent
  match check st1 with
  | some edges => (some newId, edges.foldl insertEdge st1)
  | none => (none, st1)

theorem putEnt_edges (st : Store) (i : Nat) (e : EntData) :
    (putEnt st i e).edges = st.edges := rfl

theorem insertEdge_entities (st : Store) (e : Edge) :
    (insertEdge st e).entities = st.entities := by
  unfold insertEdge; split <;> rfl

theorem removeEdge_entities (st : Store) (e : Edge) :
    (removeEdge st e).entities = st.entities := rfl

theorem foldl_insertEdge_entities (l : List Edge) (st : Store) :
    (l.foldl insertEdge st).entities = st.entities := by
  induction l generalizing st with
  | nil => rfl
  | cons e t ih => rw [List.foldl_cons, ih, insertEdge_entities]

theorem foldl_removeEdge_entities (l : List Edge) (st : Store) :
    (l.foldl removeEdge st).entities = st.entities := by
  induction l generalizing st with
  | nil => rfl
  | cons e t ih => rw [List.foldl_cons, ih, removeEdge_entities]

theorem get_of_entities_eq {s t : Store} (h : s.entities = t.entities)
    (i : Nat) : Txn.get s i = Txn.get t i := by
  unfold Txn.get; rw [h]

theorem get_putEnt_self (st : Store) (i : Nat) (e : EntData) :
    Txn.get (putEnt st i e) i = some { e with id := i } := by
  simp [Txn.get, putEnt, List.find?]

/-- C3: the compare-and-set in `update`. With the target entity stored as
`cur` and the drafts resolvable: when the stored version differs from the
in-memory version captured before the mutator ran, the call returns
`Ok(false)` and the state is untouched (no entity write, no edge write);
when they match, the call returns `Ok(true)` and the mutated, re-versioned
entity is stored under its id. -/
theorem update_cas_semantics (δ : Type) [DecidableEq δ]
    (draftFn : EntData → δ) (check : δ → Store → Option (List Edge))
    (markUpdated : EntData → EntData) (st : Store) (ent : EntData)
    (mutator : EntData → EntData) (cur : EntData)
    (hcur : Txn.get st (markUpdated (mutator ent)).id = some cur)
    (hchk : draftFn ent = draftFn (markUpdated (mutator ent)) ∨
      ((∃ e0, check (draftFn ent) st = some e0) ∧
        ∃ e1, check (draftFn (markUpdated (mutator ent))) st = some e1)) :
    (cur.last_updated ≠ ent.last_updated →
      Txn.update δ draftFn check markUpdated st ent mutator =
        some (st, false)) ∧
    (cur.last_updated = ent.last_updated →
      ∃ st', Txn.update δ draftFn check markUpdated st ent mutator =
          some (st', true) ∧
        Txn.get st' (markUpdated (mutator ent)).id =
          some (markUpdated (mutator ent))) := by
  constructor
  · intro hlu
    by_cases hde : draftFn ent = draftFn (markUpdated (mutator ent))
    · simp [Txn.update, hde, update_internal, hcur, hlu]
    · obtain ⟨⟨e0, h0⟩, e1, h1⟩ := hchk.resolve_left hde
      simp [Txn.update, hde, h0, h1, update_internal, hcur, hlu]
  · intro hlu
    by_cases hde : draftFn ent = draftFn (markUpdated (mutator ent))
    · refine ⟨putEnt st (markUpdated (mutator ent)).id (markUpdated (mutator ent)),
        ?_, ?_⟩
      · simp [Txn.update, hde, update_internal, hcur, hlu]
      · rw [get_putEnt_self]
    · obtain ⟨⟨e0, h0⟩, e1, h1⟩ := hchk.resolve_left hde
      refine ⟨e1.foldl insertEdge (e0.foldl removeEdge
        (putEnt st (markUpdated (mutator ent)).id (markUpdated (mutator ent)))),
        ?_, ?_⟩
      · simp [Txn.update, hde, h0, h1, update_internal, hcur, hlu]
      · have hent : (e1.foldl insertEdge (e0.foldl removeEdge
            (putEnt st (markUpdated (mutator ent)).id
              (markUpdated (mutator ent))))).entities =
            (putEnt st (markUpdated (mutator ent)).id
              (markUpdated (mutator ent))).entities := by
          rw [foldl_insertEdge_entities, foldl_removeEdge_entities]
        rw [get_of_entities_eq hent, get_putEnt_self]

theorem update_cas_semantics_witness :
    Txn.update Nat (fun _ => 0) (fun _ _ => some []) (fun e => ⟨e.id, 5, e.data⟩)
      ⟨[(3, ⟨3, 1, "a"⟩)], []⟩ ⟨3, 2, "a"⟩ (fun e => e) = some (⟨[(3, ⟨3, 1, "a"⟩)], []⟩, false) :=
  (update_cas_semantics Nat (fun _ => 0) (fun _ _ => some [])
    (fun e => ⟨e.id, 5, e.data⟩) ⟨[(3, ⟨3, 1, "a"⟩)], []⟩ ⟨3, 2, "a"⟩ (fun e => e)
    ⟨3, 1, "a"⟩ (by decide) (Or.inl rfl)).1 (by decide)

/-- C6: when the edge draft computed before the mutation equals the one
computed after it, `update` performs zero edge writes: the edge keyspace of
the resulting state is identical, whatever the CAS outcome. -/
theorem update_equal_drafts_no_edge_writes (δ : Type) [DecidableEq δ]
    (draftFn : EntData → δ) (check : δ → Store → Option (List Edge))
    (markUpdated : EntData → EntData) (st : Store) (ent : EntData)
    (mutator : EntData → EntData)
    (h : draftFn ent = draftFn (markUpdated (mutator ent))) :
    ∃ st' b, Txn.update δ draftFn check markUpdated st ent mutator =
        some (st', b) ∧ st'.edges = st.edges := by
  cases hg : Txn.get st (markUpdated (mutator ent)).id with
  | none =>
    exact ⟨st, false, by simp [Txn.update, h, update_internal, hg], rfl⟩
  | some cur =>
    by_cases hlu : cur.last_updated = ent.last_updated
    · exact ⟨putEnt st (markUpdated (mutator ent)).id (markUpdated (mutator ent)),
        true, by simp [Txn.update, h, update_internal, hg, hlu], rfl⟩
    · exact ⟨st, false, by simp [Txn.update, h, update_internal, hg, hlu], rfl⟩

theorem update_equal_drafts_no_edge_writes_witness :
    ∃ st' b,
      Txn.update Nat (fun _ => 0) (fun _ _ => some [⟨1, [97], 2⟩])
          (fun e => ⟨e.id, 5, e.data⟩) ⟨[(3, ⟨3, 1, "a"⟩)], [⟨9, [97], 9⟩]⟩
          ⟨3, 1, "a"⟩ (fun e => ⟨e.id, e.last_updated, "b"⟩) = some (st', b) ∧
        st'.edges = [⟨9, [97], 9⟩] :=
  update_equal_drafts_no_edge_writes Nat (fun _ => 0)
    (fun _ _ => some [⟨1, [97], 2⟩]) (fun e => ⟨e.id, 5, e.data⟩)
    ⟨[(3, ⟨3, 1, "a"⟩)], [⟨9, [97], 9⟩]⟩ ⟨3, 1, "a"⟩
    (fun e => ⟨e.id, e.last_updated, "b"⟩) rfl

/-- C10: an `update` whose target id has no stored entity returns
`Ok(false)` without error and writes nothing, exactly like a CAS conflict
(provided the drafts resolve, which they do trivially when equal). -/
theorem update_missing_entity (δ : Type) [DecidableEq δ]
    (draftFn : EntData → δ) (check : δ → Store → Option (List Edge))
    (markUpdated : EntData → EntData) (st : Store) (ent : EntData)
    (mutator : EntData → EntData)
    (hmiss : Txn.get st (markUpdated (mutator ent)).id = none)
    (hchk : draftFn ent = draftFn (markUpdated (mutator ent)) ∨
      ((∃ e0, check (draftFn ent) st = some e0) ∧
        ∃ e1, check (draftFn (markUpdated (mutator ent))) st = some e1)) :
    Txn.update δ draftFn check markUpdated st ent mutator =
      some (st, false) := by
  by_cases hde : draftFn ent = draftFn (markUpdated (mutator ent))
  · simp [Txn.update, hde, update_internal, hmiss]
  · obtain ⟨⟨e0, h0⟩, e1, h1⟩ := hchk.resolve_left hde
    simp [Txn.update, hde, h0, h1, update_internal, hmiss]

theorem update_missing_entity_witness :
    Txn.update Nat (fun _ => 0) (fun _ _ => some [])
      (fun e => ⟨e.id, 5, e.data⟩) ⟨[], []⟩ ⟨3, 2, "a"⟩ (fun e => e) =
      some (⟨[], []⟩, false) :=
  update_missing_entity Nat (fun _ => 0) (fun _ _ => some [])
    (fun e => ⟨e.id, 5, e.data⟩) ⟨[], []⟩ ⟨3, 2, "a"⟩ (fun e => e)
    (by decide) (Or.inl rfl)

theorem find_entities_filter_ne {l : List (Nat × EntData)} {i j : Nat}
    (h : j ≠ i) :
    (l.filter (fun p => p.1 != i)).find? (fun p => p.1 == j) =
      l.find? (fun p => p.1 == j) := by
  induction l with
  | nil => rfl
  | cons a t ih =>
    by_cases hj : a.1 = j
    · have hi : a.1 ≠ i := by omega
      simp [List.filter_cons, List.find?_cons, hj, hi, h]
    · by_cases hi : a.1 = i
      · simp [List.filter_cons, List.find?_cons, hi, hj, ih, h, Ne.symm h]
      · simp [List.filter_cons, List.find?_cons, hi, hj, ih]

/-- C7: `delete(id)` removes the entity record stored under `id` (other ids
are untouched) and removes exactly the edges whose `dest` equals `id`,
whatever their source or sort_key; it is total, so an id with no stored
entity is not an error. -/
theorem delete_semantics (st : Store) (i : Nat) :
    Txn.get (Txn.delete st i) i = none ∧
    (∀ j, j ≠ i → Txn.get (Txn.delete st i) j = Txn.get st j) ∧
    ∀ e, e ∈ (Txn.delete st i).edges ↔ e ∈ st.edges ∧ e.dest ≠ i := by
  refine ⟨?_, ?_, ?_⟩
  · have hnone : (st.entities.filter (fun p => p.1 != i)).find?
        (fun p => p.1 == i) = none := by
      rw [List.find?_eq_none]
      intro p hp
      have := (List.mem_filter.mp hp).2
      simpa using this
    simp [Txn.get, Txn.delete, hnone]
  · intro j hj
    unfold Txn.get Txn.delete
    rw [find_entities_filter_ne hj]
  · intro e
    simp [Txn.delete, List.mem_filter]

theorem delete_semantics_witness :
    Txn.get (Txn.delete ⟨[(1, ⟨1, 0, "a"⟩)], [⟨2, [97], 1⟩, ⟨1, [98], 3⟩]⟩ 1) 1 =
        none ∧
      Txn.get (Txn.delete ⟨[(1, ⟨1, 0, "a"⟩)], [⟨2, [97], 1⟩, ⟨1, [98], 3⟩]⟩ 1) 3 =
        Txn.get ⟨[(1, ⟨1, 0, "a"⟩)], [⟨2, [97], 1⟩, ⟨1, [98], 3⟩]⟩ 3 ∧
      (⟨1, [98], 3⟩ ∈ (Txn.delete ⟨[(1, ⟨1, 0, "a"⟩)],
          [⟨2, [97], 1⟩, ⟨1, [98], 3⟩]⟩ 1).edges ↔
        (⟨1, [98], 3⟩ : Edge) ∈ [⟨2, [97], 1⟩, ⟨1, [98], 3⟩] ∧ (3 : Nat) ≠ 1) :=
  ⟨(delete_semantics ⟨[(1, ⟨1, 0, "a"⟩)], [⟨2, [97], 1⟩, ⟨1, [98], 3⟩]⟩ 1).1,
   (delete_semantics ⟨[(1, ⟨1, 0, "a"⟩)], [⟨2, [97], 1⟩, ⟨1, [98], 3⟩]⟩ 1).2.1 3
     (by decide),
   (delete_semantics ⟨[(1, ⟨1, 0, "a"⟩)], [⟨2, [97], 1⟩, ⟨1, [98], 3⟩]⟩ 1).2.2
     ⟨1, [98], 3⟩⟩

/-- Rust `as i64` on a `u64` value (two's-complement reinterpretation), as
performed by the sqlite backend when binding ids. -/
def toI64 (n : Nat) : Int := if n < 2 ^ 63 then (n : Int) else (n : Int) - 2 ^ 64

/-- The row the sqlite backend stores for an edge: `source as i64`, the
sort_key bytes as a BLOB, `dest as i64`. -/
def sqliteEdgeRow (e : Edge) : Int × List Nat × Int :=
  (toI64 e.source, e.sort_key, toI64 e.dest)

/-- `Txn::create_edge` (sqlite backend): a plain `INSERT INTO edges`; the
table's composite primary key `(source, type, dest)` makes a duplicate
insert fail with a constraint violation (`none`). -/
def Sqlite.create_edge (rows : List Edge) (e : Edge) : Option (List Edge) :=
  if rows.any (fun x => sqliteEdgeRow x == sqliteEdgeRow e) then none
  else some (rows ++ [e])

/-- C8 (amended): duplicate `create_edge` diverges between the backends. On
the ordered-key backend the second insert of the same triple succeeds and
leaves the edge set unchanged with the triple stored exactly once; on the
sqlite backend any insert of a triple whose row is already present — in
particular the second of two identical inserts — fails with a primary-key
error. -/
theorem create_edge_duplicate_semantics (st : Store) (e : Edge)
    (h : st.edges.Nodup) :
    Txn.create_edge (Txn.create_edge st e) e = Txn.create_edge st e ∧
    (Txn.create_edge (Txn.create_edge st e) e).edges.count e = 1 ∧
    ∀ rows : List Edge, Sqlite.create_edge (rows ++ [e]) e = none := by
  have hmem : e ∈ (Txn.create_edge st e).edges := by
    unfold Txn.create_edge insertEdge
    by_cases he : e ∈ st.edges <;> simp [he]
  have hidem : Txn.create_edge (Txn.create_edge st e) e = Txn.create_edge st e := by
    unfold Txn.create_edge insertEdge
    simp [hmem]
    intro hc
    exact absurd (by simpa [Txn.create_edge, insertEdge, hc] using hmem) hc
  refine ⟨hidem, ?_, ?_⟩
  · rw [hidem]
    unfold Txn.create_edge insertEdge
    by_cases he : e ∈ st.edges
    · simpa [he] using List.count_eq_one_of_mem h he
    · simp [he, List.count_append, List.count_eq_zero_of_not_mem he]
  · intro rows
    unfold Sqlite.create_edge
    rw [if_pos]
    rw [List.any_append]
    simp

theorem create_edge_duplicate_counterexample :
    Sqlite.create_edge [] ⟨1, [97], 2⟩ = some [⟨1, [97], 2⟩] ∧
      Sqlite.create_edge [⟨1, [97], 2⟩] ⟨1, [97], 2⟩ = none := by
  constructor <;> decide

theorem create_edge_duplicate_semantics_witness :
    Txn.create_edge (Txn.create_edge ⟨[], []⟩ ⟨1, [97], 2⟩) ⟨1, [97], 2⟩ =
        Txn.create_edge ⟨[], []⟩ ⟨1, [97], 2⟩ ∧
      (Txn.create_edge (Txn.create_edge ⟨[], []⟩ ⟨1, [97], 2⟩)
          ⟨1, [97], 2⟩).edges.count ⟨1, [97], 2⟩ = 1 ∧
      ∀ rows : List Edge, Sqlite.create_edge (rows ++ [⟨1, [97], 2⟩]) ⟨1, [97], 2⟩ =
        none :=
  create_edge_duplicate_semantics ⟨[], []⟩ ⟨1, [97], 2⟩ (by decide)

/-- C9 (amended): when draft validation fails during `create`, the call
returns an error but the entity insert performed just before `setup_edges`
stays visible inside the transaction: `get` on the freshly allocated id
returns the entity, and no edge has been written. The write disappears only
if the whole transaction is discarded instead of committed. -/
theorem create_draft_error_leaves_entity (st : Store) (newId : Nat)
    (ent : EntData) (check : Store → Option (List Edge))
    (h : check (putEnt st newId ent) = none) :
    (Txn.create st newId ent check).1 = none ∧
    Txn.get (Txn.create st newId ent check).2 newId =
      some { ent with id := newId } ∧
    (Txn.create st newId ent check).2.edges = st.edges := by
  refine ⟨?_, ?_, ?_⟩ <;> simp [Txn.create, h, get_putEnt_self, putEnt_edges]

/-- C9 counterexample: a failing draft check still leaves the created entity
readable within the transaction, contradicting the claimed atomicity. -/
theorem create_draft_error_counterexample :
    (Txn.create ⟨[], []⟩ 7 ⟨0, 5, "x"⟩ (fun _ => none)).1 = none ∧
      Txn.get (Txn.create ⟨[], []⟩ 7 ⟨0, 5, "x"⟩ (fun _ => none)).2 7 =
        some ⟨7, 5, "x"⟩ := by
  constructor <;> decide

theorem create_draft_error_leaves_entity_witness :
    (Txn.create ⟨[], []⟩ 9 ⟨0, 5, "x"⟩ (fun _ => none)).1 = none ∧
      Txn.get (Txn.create ⟨[], []⟩ 9 ⟨0, 5, "x"⟩ (fun _ => none)).2 9 =
        some ⟨9, 5, "x"⟩ ∧
      (Txn.create ⟨[], []⟩ 9 ⟨0, 5, "x"⟩ (fun _ => none)).2.edges = [] :=
  create_draft_error_leaves_entity ⟨[], []⟩ 9 ⟨0, 5, "x"⟩ (fun _ => none) rfl

theorem Ordering.then_eq_lt_iff {x y : Ordering} :
    x.then y = .lt ↔ x = .lt ∨ (x = .eq ∧ y = .lt) := by
  cases x <;> simp [Ordering.then]

theorem Ordering.then_eq_gt_iff {x y : Ordering} :
    x.then y = .gt ↔ x = .gt ∨ (x = .eq ∧ y = .gt) := by
  cases x <;> simp [Ordering.then]

theorem Ordering.then_eq_eq_iff {x y : Ordering} :
    x.then y = .eq ↔ x = .eq ∧ y = .eq := by
  cases x <;> simp [Ordering.then]

theorem Ordering.then_swap (x y : Ordering) :
    (x.then y).swap = x.swap.then y.swap := by
  cases x <;> rfl

theorem natCmp_lt_iff {a b : Nat} : natCmp a b = .lt ↔ a < b := by
  unfold natCmp
  rcases Nat.lt_trichotomy a b with h | h | h <;> simp [h] <;> omega

theorem natCmp_swap (a b : Nat) : natCmp a b = (natCmp b a).swap := by
  unfold natCmp
  by_cases h1 : a < b
  · have h2 : ¬ b < a := by omega
    simp [h1, h2, Ordering.swap]
  · by_cases h2 : b < a
    · simp [h1, h2, Ordering.swap]
    · simp [h1, h2, Ordering.swap]

theorem intCmp_swap (a b : Int) : intCmp a b = (intCmp b a).swap := by
  unfold intCmp
  by_cases h1 : a < b
  · have h2 : ¬ b < a := by omega
    simp [h1, h2, Ordering.swap]
  · by_cases h2 : b < a
    · simp [h1, h2, Ordering.swap]
    · simp [h1, h2, Ordering.swap]

theorem bytesCmp_swap (a b : List Nat) : bytesCmp a b = (bytesCmp b a).swap := by
  induction a generalizing b with
  | nil => cases b <;> rfl
  | cons x xs ih =>
    cases b with
    | nil => rfl
    | cons y ys =>
      by_cases h1 : x < y
      · have h2 : ¬ y < x := by omega
        simp [bytesCmp, h1, h2, Ordering.swap]
      · by_cases h2 : y < x
        · simp [bytesCmp, h1, h2, Ordering.swap]
        · simp [bytesCmp, h1, h2, ih ys]

theorem bytesCmp_lt_trans {a b c : List Nat} (h₁ : bytesCmp a b = .lt)
    (h₂ : bytesCmp b c = .lt) : bytesCmp a c = .lt := by
  induction a generalizing b c with
  | nil =>
    cases b with
    | nil => exact absurd h₁ (by simp [bytesCmp])
    | cons y ys =>
      cases c with
      | nil => exact absurd h₂ (by simp [bytesCmp])
      | cons z zs => simp [bytesCmp]
  | cons x xs ih =>
    cases b with
    | nil => exact absurd h₁ (by simp [bytesCmp])
    | cons y ys =>
      cases c with
      | nil => exact absurd h₂ (by simp [bytesCmp])
      | cons z zs =>
        by_cases hxy : x < y
        · by_cases hyz : y < z
          · simp [bytesCmp, show x < z by omega]
          · by_cases hzy : z < y
            · simp [bytesCmp, hyz, hzy] at h₂
            · have : y = z := by omega
              subst this
              simp [bytesCmp, hxy]
        · by_cases hyx : y < x
          · simp [bytesCmp, hxy, hyx] at h₁
          · have : x = y := by omega
            subst this
            simp only [bytesCmp, lt_irrefl, if_false] at h₁
            by_cases hyz : x < z
            · simp [bytesCmp, hyz]
            · by_cases hzy : z < x
              · simp [bytesCmp, hyz, hzy] at h₂
              · have : x = z := by omega
                subst this
                simp only [bytesCmp, lt_irrefl, if_false] at h₂ ⊢
                exact ih h₁ h₂

theorem intCmp_eq_iff {a b : Int} : intCmp a b = .eq ↔ a = b := by
  unfold intCmp
  by_cases h1 : a < b
  · simp [h1]; omega
  · by_cases h2 : b < a <;> simp [h1, h2] <;> omega

theorem intCmp_lt_iff {a b : Int} : intCmp a b = .lt ↔ a < b := by
  unfold intCmp
  by_cases h1 : a < b
  · simp [h1]
  · by_cases h2 : b < a <;> simp [h1, h2]

theorem intCmp_natCast (a b : Nat) : intCmp (a : Int) (b : Int) = natCmp a b := by
  unfold intCmp natCmp
  by_cases h1 : a < b
  · simp [h1, show (a : Int) < b by omega]
  · by_cases h2 : b < a
    · simp [h1, h2, show ¬ (a : Int) < b by omega, show (b : Int) < a by omega]
    · simp [h1, h2, show ¬ (a : Int) < b by omega, show ¬ (b : Int) < a by omega]

/-- The `(sort_key, dest)` comparison used by the heed backend's sort and
cursor filter: Rust tuple ordering on `(&Vec<u8>, u64)`. -/
def edgeKeyCmp (a b : List Nat × Nat) : Ordering :=
  (bytesCmp a.1 b.1).then (natCmp a.2 b.2)

/-- The `(type, dest)` comparison SQLite applies in `ORDER BY type, dest`
and in the row-value cursor predicate: BLOB memcmp, then INTEGER order. -/
def intKeyCmp (a b : List Nat × Int) : Ordering :=
  (bytesCmp a.1 b.1).then (intCmp a.2 b.2)

theorem edgeKeyCmp_eq_iff {a b : List Nat × Nat} :
    edgeKeyCmp a b = .eq ↔ a = b := by
  unfold edgeKeyCmp
  rw [Ordering.then_eq_eq_iff, bytesCmp_eq_iff, natCmp_eq_iff,
    Prod.ext_iff]

theorem edgeKeyCmp_swap (a b : List Nat × Nat) :
    edgeKeyCmp a b = (edgeKeyCmp b a).swap := by
  unfold edgeKeyCmp
  rw [Ordering.then_swap, ← bytesCmp_swap, ← natCmp_swap]

theorem edgeKeyCmp_lt_trans {a b c : List Nat × Nat}
    (h₁ : edgeKeyCmp a b = .lt) (h₂ : edgeKeyCmp b c = .lt) :
    edgeKeyCmp a c = .lt := by
  unfold edgeKeyCmp at h₁ h₂ ⊢
  rw [Ordering.then_eq_lt_iff] at h₁ h₂ ⊢
  rcases h₁ with h₁ | ⟨h₁e, h₁n⟩
  · rcases h₂ with h₂ | ⟨h₂e, h₂n⟩
    · exact Or.inl (bytesCmp_lt_trans h₁ h₂)
    · rw [bytesCmp_eq_iff] at h₂e
      exact Or.inl (h₂e ▸ h₁)
  · rcases h₂ with h₂ | ⟨h₂e, h₂n⟩
    · rw [bytesCmp_eq_iff] at h₁e
      exact Or.inl (h₁e ▸ h₂)
    · rw [bytesCmp_eq_iff] at h₁e h₂e
      refine Or.inr ⟨by rw [h₁e, h₂e, bytesCmp_refl], ?_⟩
      rw [natCmp_lt_iff] at h₁n h₂n ⊢
      omega

theorem intKeyCmp_eq_iff {a b : List Nat × Int} :
    intKeyCmp a b = .eq ↔ a = b := by
  unfold intKeyCmp
  rw [Ordering.then_eq_eq_iff, bytesCmp_eq_iff, intCmp_eq_iff, Prod.ext_iff]

theorem intKeyCmp_swap (a b : List Nat × Int) :
    intKeyCmp a b = (intKeyCmp b a).swap := by
  unfold intKeyCmp
  rw [Ordering.then_swap, ← bytesCmp_swap, ← intCmp_swap]

theorem intKeyCmp_lt_trans {a b c : List Nat × Int}
    (h₁ : intKeyCmp a b = .lt) (h₂ : intKeyCmp b c = .lt) :
    intKeyCmp a c = .lt := by
  unfold intKeyCmp at h₁ h₂ ⊢
  rw [Ordering.then_eq_lt_iff] at h₁ h₂ ⊢
  rcases h₁ with h₁ | ⟨h₁e, h₁n⟩
  · rcases h₂ with h₂ | ⟨h₂e, h₂n⟩
    · exact Or.inl (bytesCmp_lt_trans h₁ h₂)
    · rw [bytesCmp_eq_iff] at h₂e
      exact Or.inl (h₂e ▸ h₁)
  · rcases h₂ with h₂ | ⟨h₂e, h₂n⟩
    · rw [bytesCmp_eq_iff] at h₁e
      exact Or.inl (h₁e ▸ h₂)
    · rw [bytesCmp_eq_iff] at h₁e h₂e
      refine Or.inr ⟨by rw [h₁e, h₂e, bytesCmp_refl], ?_⟩
      rw [intCmp_lt_iff] at h₁n h₂n ⊢
      omega

/-- `SortOrder` from `src/ents/src/query_edge.rs`. -/
inductive SortOrder where
  | Asc
  | Desc
deriving DecidableEq

/-- `EdgeQuery` from `src/ents/src/query_edge.rs`: name filter (empty means
no filter), sort order, optional `(sort_key, destination)` cursor. -/
structure EdgeQuery where
  edge_names : List (List Nat)
  order : SortOrder
  cursor : Option (List Nat × Nat)

/-- The `(sort_key, dest)` key of an edge used for ordering and cursors. -/
def keyOf (e : Edge) : List Nat × Nat := (e.sort_key, e.dest)

/-- The comparator passed to `sort_by` for ascending order, as a non-strict
relation (`cmp(a, b) != Greater`). -/
def edgeLeAsc (a b : Edge) : Prop := edgeKeyCmp (keyOf a) (keyOf b) ≠ .gt

/-- The comparator passed to `sort_by` for descending order (arguments
flipped in the source). -/
def edgeLeDesc (a b : Edge) : Prop := edgeKeyCmp (keyOf b) (keyOf a) ≠ .gt

instance : DecidableRel edgeLeAsc := fun a b => by
  unfold edgeLeAsc; infer_instance

instance : DecidableRel edgeLeDesc := fun a b => by
  unfold edgeLeDesc; infer_instance

theorem edgeKeyCmp_not_gt {k₁ k₂ : List Nat × Nat}
    (h : edgeKeyCmp k₁ k₂ ≠ .gt) :
    edgeKeyCmp k₁ k₂ = .lt ∨ k₁ = k₂ := by
  rcases he : edgeKeyCmp k₁ k₂ with _ | _ | _
  · exact Or.inl rfl
  · exact Or.inr (edgeKeyCmp_eq_iff.mp he)
  · exact absurd he h

instance : IsTrans Edge edgeLeAsc := by
  refine ⟨fun a b c h₁ h₂ => ?_⟩
  unfold edgeLeAsc at h₁ h₂ ⊢
  rcases edgeKeyCmp_not_gt h₁ with h₁ | h₁
  · rcases edgeKeyCmp_not_gt h₂ with h₂ | h₂
    · simp [edgeKeyCmp_lt_trans h₁ h₂]
    · rw [← h₂]; simp [h₁]
  · rw [h₁]
    exact h₂

instance : IsTotal Edge edgeLeAsc := by
  refine ⟨fun a b => ?_⟩
  unfold edgeLeAsc
  rcases he : edgeKeyCmp (keyOf a) (keyOf b) with _ | _ | _
  · exact Or.inl (by simp)
  · exact Or.inl (by simp)
  · refine Or.inr ?_
    rw [edgeKeyCmp_swap, he]
    simp [Ordering.swap]

instance : IsTrans Edge edgeLeDesc := by
  refine ⟨fun a b c h₁ h₂ => ?_⟩
  unfold edgeLeDesc at h₁ h₂ ⊢
  rcases edgeKeyCmp_not_gt h₂ with h₂ | h₂
  · rcases edgeKeyCmp_not_gt h₁ with h₁ | h₁
    · simp [edgeKeyCmp_lt_trans h₂ h₁]
    · rw [← h₁]; simp [h₂]
  · rw [h₂]
    exact h₁

instance : IsTotal Edge edgeLeDesc := by
  refine ⟨fun a b => ?_⟩
  unfold edgeLeDesc
  rcases he : edgeKeyCmp (keyOf b) (keyOf a) with _ | _ | _
  · exact Or.inl (by simp)
  · exact Or.inl (by simp)
  · refine Or.inr ?_
    rw [edgeKeyCmp_swap, he]
    simp [Ordering.swap]

/-- The edge-name filter shared by both backends: keep everything when
`edge_names` is empty, otherwise keep edges whose sort_key is a member. -/
def nameKeep (names : List (List Nat)) (e : Edge) : Bool :=
  names.isEmpty || names.contains e.sort_key

/-- The cursor filter inside `find_edges_internal`: for `Asc` skip edges
with `(sort_key, dest) <= cursor`, for `Desc` skip those `>= cursor`. -/
def cursorKeep (order : SortOrder) (cursor : Option (List Nat × Nat))
    (e : Edge) : Bool :=
  match cursor with
  | none => true
  | some c =>
    match order with
    | .Asc => edgeKeyCmp (keyOf e) c == .gt
    | .Desc => edgeKeyCmp (keyOf e) c == .lt

/-- `MAX_EDGES` from `src/ents-heed/src/lib.rs`. -/
def MAX_EDGES : Nat := 100

/-- The result loop of `find_edges_internal`: walk the sorted list, skip
edges rejected by the cursor, push the rest, and stop once `MAX_EDGES`
results have been pushed (`fuel` counts the remaining slots). -/
def pageLoop (keep : Edge → Bool) : List Edge → Nat → List Edge
  | [], _ => []
  | e :: rest, fuel =>
    if keep e then
      if fuel ≤ 1 then [e] else e :: pageLoop keep rest (fuel - 1)
    else pageLoop keep rest fuel

/-- `find_edges_internal` from `src/ents-heed/src/lib.rs`: prefix-scan the
edge keyspace by the 8-byte source prefix (by `bytesCmp_be64` this is
exactly the edges whose source equals the query source), apply the name
filter, sort in memory by `(sort_key, dest)` in the requested order, then
apply the cursor filter with a `MAX_EDGES` limit. -/
def find_edges_internal (edges : List Edge) (source : Nat) (q : EdgeQuery) :
    List Edge :=
  let all_edges := edges.filter fun e =>
    e.source == source && nameKeep q.edge_names e
  let sorted := match q.order with
    | .Asc => List.insertionSort edgeLeAsc all_edges
    | .Desc => List.insertionSort edgeLeDesc all_edges
  pageLoop (cursorKeep q.order q.cursor) sorted MAX_EDGES

theorem pageLoop_eq_filter_take (keep : Edge → Bool) (l : List Edge) :
    ∀ fuel, 1 ≤ fuel → pageLoop keep l fuel = (l.filter keep).take fuel := by
  induction l with
  | nil => intro fuel _; simp [pageLoop]
  | cons e rest ih =>
    intro fuel hf
    by_cases hk : keep e
    · by_cases h1 : fuel ≤ 1
      · have : fuel = 1 := by omega
        subst this
        simp [pageLoop, hk, List.filter_cons]
      · have h2 : 1 ≤ fuel - 1 := by omega
        simp only [pageLoop, if_pos hk, if_neg h1, List.filter_cons, hk,
          ite_true, ih (fuel - 1) h2]
        rw [show fuel = (fuel - 1) + 1 by omega]
        simp
    · simp [pageLoop, hk, List.filter_cons, ih fuel hf]

theorem edge_eq_of_key_eq {a b : Edge} (hk : keyOf a = keyOf b)
    (hs : a.source = b.source) : a = b := by
  cases a; cases b
  simp only [keyOf, Prod.mk.injEq] at hk
  simp_all

theorem mem_filter_source {edges : List Edge} {source : Nat} {p : Edge → Bool}
    {e : Edge}
    (he : e ∈ edges.filter fun x => x.source == source && p x) :
    e.source = source := by
  have := (List.mem_filter.mp he).2
  simp only [Bool.and_eq_true, beq_iff_eq] at this
  exact this.1

/-- C4: `find_edges_internal` returns the edges whose source equals the
query source and whose sort_key passes the name filter, arranged in the
requested strict `(sort_key, dest)` order, restricted by the strict cursor
bound, and cut to the first `MAX_EDGES` results after ordering and cursor
filtering. -/
theorem find_edges_internal_semantics (edges : List Edge) (source : Nat)
    (q : EdgeQuery) (hnd : edges.Nodup) :
    ∃ l : List Edge,
      l.Perm (edges.filter fun e =>
        e.source == source && nameKeep q.edge_names e) ∧
      l.Pairwise (fun a b =>
        match q.order with
        | .Asc => edgeKeyCmp (keyOf a) (keyOf b) = .lt
        | .Desc => edgeKeyCmp (keyOf a) (keyOf b) = .gt) ∧
      find_edges_internal edges source q =
        (l.filter (cursorKeep q.order q.cursor)).take MAX_EDGES := by
  obtain ⟨names, order, cursor⟩ := q
  cases order
  · refine ⟨List.insertionSort edgeLeAsc (edges.filter fun e =>
      e.source == source && nameKeep names e),
      List.perm_insertionSort _ _, ?_, ?_⟩
    · have hsor := List.sorted_insertionSort edgeLeAsc (edges.filter fun e =>
        e.source == source && nameKeep names e)
      have hnds : (List.insertionSort edgeLeAsc (edges.filter fun e =>
          e.source == source && nameKeep names e)).Nodup :=
        (List.perm_insertionSort _ _).symm.nodup (hnd.filter _)
      refine (hnds.and hsor).imp_of_mem ?_
      intro a b ha hb hab
      have hsa : a.source = source :=
        mem_filter_source ((List.perm_insertionSort _ _).subset ha)
      have hsb : b.source = source :=
        mem_filter_source ((List.perm_insertionSort _ _).subset hb)
      rcases edgeKeyCmp_not_gt hab.2 with h | h
      · exact h
      · exact absurd (edge_eq_of_key_eq h (hsa.trans hsb.symm)) hab.1
    · show pageLoop (cursorKeep .Asc cursor) _ MAX_EDGES = _
      exact pageLoop_eq_filter_take _ _ MAX_EDGES (by norm_num [MAX_EDGES])
  · refine ⟨List.insertionSort edgeLeDesc (edges.filter fun e =>
      e.source == source && nameKeep names e),
      List.perm_insertionSort _ _, ?_, ?_⟩
    · have hsor := List.sorted_insertionSort edgeLeDesc (edges.filter fun e =>
        e.source == source && nameKeep names e)
      have hnds : (List.insertionSort edgeLeDesc (edges.filter fun e =>
          e.source == source && nameKeep names e)).Nodup :=
        (List.perm_insertionSort _ _).symm.nodup (hnd.filter _)
      refine (hnds.and hsor).imp_of_mem ?_
      intro a b ha hb hab
      have hsa : a.source = source :=
        mem_filter_source ((List.perm_insertionSort _ _).subset ha)
      have hsb : b.source = source :=
        mem_filter_source ((List.perm_insertionSort _ _).subset hb)
      rcases edgeKeyCmp_not_gt hab.2 with h | h
      · show edgeKeyCmp (keyOf a) (keyOf b) = .gt
        rw [edgeKeyCmp_swap, h]
        rfl
      · exact absurd (edge_eq_of_key_eq h.symm (hsa.trans hsb.symm)) hab.1
    · show pageLoop (cursorKeep .Desc cursor) _ MAX_EDGES = _
      exact pageLoop_eq_filter_take _ _ MAX_EDGES (by norm_num [MAX_EDGES])

/-- The `(type, dest)` key of an edge as the sqlite backend stores it:
the sort_key BLOB and `dest as i64`. -/
def sqliteKeyOf (e : Edge) : List Nat × Int := (e.sort_key, toI64 e.dest)

/-- `ORDER BY type ASC, dest ASC` as a non-strict row relation. -/
def sqlLeAsc (a b : Edge) : Prop := intKeyCmp (sqliteKeyOf a) (sqliteKeyOf b) ≠ .gt

/-- `ORDER BY type DESC, dest DESC` as a non-strict row relation. -/
def sqlLeDesc (a b : Edge) : Prop := intKeyCmp (sqliteKeyOf b) (sqliteKeyOf a) ≠ .gt

instance : DecidableRel sqlLeAsc := fun a b => by
  unfold sqlLeAsc; infer_instance

instance : DecidableRel sqlLeDesc := fun a b => by
  unfold sqlLeDesc; infer_instance

theorem intKeyCmp_not_gt {k₁ k₂ : List Nat × Int}
    (h : intKeyCmp k₁ k₂ ≠ .gt) :
    intKeyCmp k₁ k₂ = .lt ∨ k₁ = k₂ := by
  rcases he : intKeyCmp k₁ k₂ with _ | _ | _
  · exact Or.inl rfl
  · exact Or.inr (intKeyCmp_eq_iff.mp he)
  · exact absurd he h

instance : IsTrans Edge sqlLeAsc := by
  refine ⟨fun a b c h₁ h₂ => ?_⟩
  unfold sqlLeAsc at h₁ h₂ ⊢
  rcases intKeyCmp_not_gt h₁ with h₁ | h₁
  · rcases intKeyCmp_not_gt h₂ with h₂ | h₂
    · simp [intKeyCmp_lt_trans h₁ h₂]
    · rw [← h₂]; simp [h₁]
  · rw [h₁]
    exact h₂

instance : IsTotal Edge sqlLeAsc := by
  refine ⟨fun a b => ?_⟩
  unfold sqlLeAsc
  rcases he : intKeyCmp (sqliteKeyOf a) (sqliteKeyOf b) with _ | _ | _
  · exact Or.inl (by simp)
  · exact Or.inl (by simp)
  · refine Or.inr ?_
    rw [intKeyCmp_swap, he]
    simp [Ordering.swap]

instance : IsTrans Edge sqlLeDesc := by
  refine ⟨fun a b c h₁ h₂ => ?_⟩
  unfold sqlLeDesc at h₁ h₂ ⊢
  rcases intKeyCmp_not_gt h₂ with h₂ | h₂
  · rcases intKeyCmp_not_gt h₁ with h₁ | h₁
    · simp [intKeyCmp_lt_trans h₂ h₁]
    · rw [← h₁]; simp [h₂]
  · rw [h₂]
    exact h₁

instance : IsTotal Edge sqlLeDesc := by
  refine ⟨fun a b => ?_⟩
  unfold sqlLeDesc
  rcases he : intKeyCmp (sqliteKeyOf b) (sqliteKeyOf a) with _ | _ | _
  · exact Or.inl (by simp)
  · exact Or.inl (by simp)
  · refine Or.inr ?_
    rw [intKeyCmp_swap, he]
    simp [Ordering.swap]

/-- The sqlite backend's cursor predicate, the SQL row-value comparison
`(type, dest) > (?, ?)` (resp. `<`): the stored key against the bound
cursor parameters (`sort_key` as BLOB, `destination` as a non-negative
`i64`). -/
def sqliteCursorKeep (order : SortOrder) (cursor : Option (List Nat × Nat))
    (e : Edge) : Bool :=
  match cursor with
  | none => true
  | some c =>
    match order with
    | .Asc => intKeyCmp (sqliteKeyOf e) (c.1, (c.2 : Int)) == .gt
    | .Desc => intKeyCmp (sqliteKeyOf e) (c.1, (c.2 : Int)) == .lt

/-- `Txn::find_edges` for the sqlite backend
(`src/ents-sqlite/src/lib.rs`): the generated statement
`SELECT ... WHERE source = ? [AND type IN (...)] [AND (type, dest) <> (?, ?)]
ORDER BY type, dest [DESC] LIMIT 100`. The `source` and cursor
`destination` parameters are bound as `u64`, which rusqlite rejects above
`i64::MAX` (`none`); stored id columns hold the `as i64` casts the backend
wrote. Rows read back reinterpret the i64 columns as `u64`, so results are
the original triples. -/
def Sqlite.find_edges (edges : List Edge) (source : Nat) (q : EdgeQuery) :
    Option (List Edge) :=
  if 2 ^ 63 ≤ source then none
  else if q.cursor.any (fun c => decide (2 ^ 63 ≤ c.2)) then none
  else
    let cands := edges.filter fun e =>
      toI64 e.source == (source : Int) && nameKeep q.edge_names e &&
        sqliteCursorKeep q.order q.cursor e
    let sorted := match q.order with
      | .Asc => List.insertionSort sqlLeAsc cands
      | .Desc => List.insertionSort sqlLeDesc cands
    some (sorted.take 100)

theorem toI64_of_lt {n : Nat} (h : n < 2 ^ 63) : toI64 n = (n : Int) := by
  unfold toI64
  rw [if_pos h]

theorem intKeyCmp_sqliteKeyOf_eq {a b : Edge} (ha : a.dest < 2 ^ 63)
    (hb : b.dest < 2 ^ 63) :
    intKeyCmp (sqliteKeyOf a) (sqliteKeyOf b) = edgeKeyCmp (keyOf a) (keyOf b) := by
  unfold intKeyCmp edgeKeyCmp sqliteKeyOf keyOf
  rw [toI64_of_lt ha, toI64_of_lt hb, intCmp_natCast]

theorem sqliteCursorKeep_eq {order : SortOrder} {cursor : Option (List Nat × Nat)}
    {e : Edge} (hd : e.dest < 2 ^ 63)
    (hc : ∀ c, cursor = some c → c.2 < 2 ^ 63) :
    sqliteCursorKeep order cursor e = cursorKeep order cursor e := by
  cases cursor with
  | none => rfl
  | some c =>
    have hkey : intKeyCmp (sqliteKeyOf e) (c.1, (c.2 : Int)) =
        edgeKeyCmp (keyOf e) c := by
      unfold intKeyCmp edgeKeyCmp sqliteKeyOf keyOf
      rw [toI64_of_lt hd, intCmp_natCast]
    cases order <;> simp [sqliteCursorKeep, cursorKeep, hkey]

theorem sqlite_source_pred_eq {e : Edge} {source : Nat}
    (he : e.source < 2 ^ 63) :
    (toI64 e.source == (source : Int)) = (e.source == source) := by
  rw [toI64_of_lt he]
  by_cases h : e.source = source
  · simp [h]
  · have hne : ¬ ((e.source : Int) = (source : Int)) := by omega
    simp [h, hne]

theorem pairwise_lt_of_le_asc {l : List Edge} (source : Nat)
    (hnd : l.Nodup) (hsrc : ∀ e ∈ l, e.source = source)
    (hle : l.Pairwise edgeLeAsc) :
    l.Pairwise fun a b => edgeKeyCmp (keyOf a) (keyOf b) = .lt := by
  refine (hnd.and hle).imp_of_mem ?_
  intro a b ha hb hab
  rcases edgeKeyCmp_not_gt hab.2 with h | h
  · exact h
  · exact absurd (edge_eq_of_key_eq h ((hsrc a ha).trans (hsrc b hb).symm)) hab.1

theorem pairwise_gt_of_le_desc {l : List Edge} (source : Nat)
    (hnd : l.Nodup) (hsrc : ∀ e ∈ l, e.source = source)
    (hle : l.Pairwise edgeLeDesc) :
    l.Pairwise fun a b => edgeKeyCmp (keyOf a) (keyOf b) = .gt := by
  refine (hnd.and hle).imp_of_mem ?_
  intro a b ha hb hab
  rcases edgeKeyCmp_not_gt hab.2 with h | h
  · rw [edgeKeyCmp_swap, h]
    rfl
  · exact absurd (edge_eq_of_key_eq h.symm ((hsrc a ha).trans (hsrc b hb).symm))
      hab.1

theorem eq_of_perm_of_pairwise_lt {l₁ l₂ : List Edge} (hp : l₁.Perm l₂)
    (h₁ : l₁.Pairwise fun a b => edgeKeyCmp (keyOf a) (keyOf b) = .lt)
    (h₂ : l₂.Pairwise fun a b => edgeKeyCmp (keyOf a) (keyOf b) = .lt) :
    l₁ = l₂ := by
  haveI : IsAntisymm Edge (fun a b => edgeKeyCmp (keyOf a) (keyOf b) = .lt) :=
    ⟨fun a b hab hba => by
      rw [edgeKeyCmp_swap, hba] at hab
      simp [Ordering.swap] at hab⟩
  exact List.eq_of_perm_of_sorted hp h₁ h₂

theorem eq_of_perm_of_pairwise_gt {l₁ l₂ : List Edge} (hp : l₁.Perm l₂)
    (h₁ : l₁.Pairwise fun a b => edgeKeyCmp (keyOf a) (keyOf b) = .gt)
    (h₂ : l₂.Pairwise fun a b => edgeKeyCmp (keyOf a) (keyOf b) = .gt) :
    l₁ = l₂ := by
  haveI : IsAntisymm Edge (fun a b => edgeKeyCmp (keyOf a) (keyOf b) = .gt) :=
    ⟨fun a b hab hba => by
      rw [edgeKeyCmp_swap, hba] at hab
      simp [Ordering.swap] at hab⟩
  exact List.eq_of_perm_of_sorted hp h₁ h₂

/-- C5 (amended): whenever every id involved (edge sources and dests, the
query source, the cursor destination) is below `2^63` — so that the sqlite
backend's `as i64` casts and `u64` parameter bindings are faithful — the
ordered-key and relational backends return bit-identical `find_edges`
results, for every name filter, sort order and cursor. -/
theorem find_edges_backend_equiv (edges : List Edge) (source : Nat)
    (q : EdgeQuery) (hnd : edges.Nodup)
    (hb : ∀ e ∈ edges, e.source < 2 ^ 63 ∧ e.dest < 2 ^ 63)
    (hs : source < 2 ^ 63)
    (hc : ∀ c, q.cursor = some c → c.2 < 2 ^ 63) :
    Sqlite.find_edges edges source q =
      some (find_edges_internal edges source q) := by
  obtain ⟨names, order, cursor⟩ := q
  have hg1 : ¬ (2 ^ 63 ≤ source) := by omega
  have hg2 : cursor.any (fun c => decide (2 ^ 63 ≤ c.2)) = false := by
    cases cursor with
    | none => rfl
    | some c =>
      have := hc c rfl
      simp only [Option.any_some, decide_eq_false_iff_not]
      omega
  have hfe : edges.filter (fun e => toI64 e.source == (source : Int) &&
      nameKeep names e && sqliteCursorKeep order cursor e) =
      edges.filter (fun e => (e.source == source && nameKeep names e) &&
        cursorKeep order cursor e) := by
    refine List.filter_congr ?_
    intro x hx
    rw [sqlite_source_pred_eq (hb x hx).1, sqliteCursorKeep_eq (hb x hx).2 hc]
  unfold Sqlite.find_edges
  dsimp only
  rw [if_neg hg1, hg2]
  rw [if_neg (by simp)]
  simp only [hfe]
  cases order
  · rw [show find_edges_internal edges source ⟨names, SortOrder.Asc, cursor⟩ =
      pageLoop (cursorKeep SortOrder.Asc cursor)
        (List.insertionSort edgeLeAsc (edges.filter fun e =>
          e.source == source && nameKeep names e)) MAX_EDGES from rfl,
      pageLoop_eq_filter_take _ _ MAX_EDGES (by norm_num [MAX_EDGES])]
    have hlist : List.insertionSort sqlLeAsc (edges.filter (fun e =>
        (e.source == source && nameKeep names e) &&
          cursorKeep SortOrder.Asc cursor e)) =
        (List.insertionSort edgeLeAsc (edges.filter fun e =>
          e.source == source && nameKeep names e)).filter
            (cursorKeep SortOrder.Asc cursor) := by
      have hferel : (edges.filter fun e =>
          e.source == source && nameKeep names e).filter
            (cursorKeep SortOrder.Asc cursor) =
          edges.filter (fun e => (e.source == source && nameKeep names e) &&
            cursorKeep SortOrder.Asc cursor e) := by
        rw [List.filter_filter]
        exact List.filter_congr fun x _ => Bool.and_comm _ _
      have hperm : (List.insertionSort sqlLeAsc (edges.filter (fun e =>
          (e.source == source && nameKeep names e) &&
            cursorKeep SortOrder.Asc cursor e))).Perm
          ((List.insertionSort edgeLeAsc (edges.filter fun e =>
            e.source == source && nameKeep names e)).filter
              (cursorKeep SortOrder.Asc cursor)) := by
        refine (List.perm_insertionSort _ _).trans ?_
        rw [← hferel]
        exact (List.Perm.filter _ (List.perm_insertionSort _ _)).symm
      have hmemedges : ∀ e ∈ List.insertionSort sqlLeAsc (edges.filter (fun e =>
          (e.source == source && nameKeep names e) &&
            cursorKeep SortOrder.Asc cursor e)), e ∈ edges := by
        intro e he
        exact List.mem_of_mem_filter
          ((List.perm_insertionSort _ _).subset he)
      refine eq_of_perm_of_pairwise_lt hperm ?_ ?_
      · refine pairwise_lt_of_le_asc source ?_ ?_ ?_
        · exact (List.perm_insertionSort _ _).symm.nodup (hnd.filter _)
        · intro e he
          have := (List.mem_filter.mp
            ((List.perm_insertionSort _ _).subset he)).2
          simp only [Bool.and_eq_true, beq_iff_eq] at this
          exact this.1.1
        · refine (List.sorted_insertionSort sqlLeAsc _).imp_of_mem ?_
          intro a b ha hb'
          unfold sqlLeAsc edgeLeAsc
          rw [intKeyCmp_sqliteKeyOf_eq (hb a (hmemedges a ha)).2
            (hb b (hmemedges b hb')).2]
          exact id
      · refine pairwise_lt_of_le_asc source ?_ ?_ ?_
        · exact ((List.perm_insertionSort _ _).symm.nodup
            (hnd.filter _)).filter _
        · intro e he
          exact mem_filter_source
            ((List.perm_insertionSort _ _).subset (List.mem_of_mem_filter he))
        · exact (List.sorted_insertionSort edgeLeAsc _).filter _
    rw [hlist]
    rfl
  · rw [show find_edges_internal edges source ⟨names, SortOrder.Desc, cursor⟩ =
      pageLoop (cursorKeep SortOrder.Desc cursor)
        (List.insertionSort edgeLeDesc (edges.filter fun e =>
          e.source == source && nameKeep names e)) MAX_EDGES from rfl,
      pageLoop_eq_filter_take _ _ MAX_EDGES (by norm_num [MAX_EDGES])]
    have hlist : List.insertionSort sqlLeDesc (edges.filter (fun e =>
        (e.source == source && nameKeep names e) &&
          cursorKeep SortOrder.Desc cursor e)) =
        (List.insertionSort edgeLeDesc (edges.filter fun e =>
          e.source == source && nameKeep names e)).filter
            (cursorKeep SortOrder.Desc cursor) := by
      have hferel : (edges.filter fun e =>
          e.source == source && nameKeep names e).filter
            (cursorKeep SortOrder.Desc cursor) =
          edges.filter (fun e => (e.source == source && nameKeep names e) &&
            cursorKeep SortOrder.Desc cursor e) := by
        rw [List.filter_filter]
        exact List.filter_congr fun x _ => Bool.and_comm _ _
      have hperm : (List.insertionSort sqlLeDesc (edges.filter (fun e =>
          (e.source == source && nameKeep names e) &&
            cursorKeep SortOrder.Desc cursor e))).Perm
          ((List.insertionSort edgeLeDesc (edges.filter fun e =>
            e.source == source && nameKeep names e)).filter
              (cursorKeep SortOrder.Desc cursor)) := by
        refine (List.perm_insertionSort _ _).trans ?_
        rw [← hferel]
        exact (List.Perm.filter _ (List.perm_insertionSort _ _)).symm
      have hmemedges : ∀ e ∈ List.insertionSort sqlLeDesc (edges.filter (fun e =>
          (e.source == source && nameKeep names e) &&
            cursorKeep SortOrder.Desc cursor e)), e ∈ edges := by
        intro e he
        exact List.mem_of_mem_filter
          ((List.perm_insertionSort _ _).subset he)
      refine eq_of_perm_of_pairwise_gt hperm ?_ ?_
      · refine pairwise_gt_of_le_desc source ?_ ?_ ?_
        · exact (List.perm_insertionSort _ _).symm.nodup (hnd.filter _)
        · intro e he
          have := (List.mem_filter.mp
            ((List.perm_insertionSort _ _).subset he)).2
          simp only [Bool.and_eq_true, beq_iff_eq] at this
          exact this.1.1
        · refine (List.sorted_insertionSort sqlLeDesc _).imp_of_mem ?_
          intro a b ha hb'
          unfold sqlLeDesc edgeLeDesc
          rw [intKeyCmp_sqliteKeyOf_eq (hb b (hmemedges b hb')).2
            (hb a (hmemedges a ha)).2]
          exact id
      · refine pairwise_gt_of_le_desc source ?_ ?_ ?_
        · exact ((List.perm_insertionSort _ _).symm.nodup
            (hnd.filter _)).filter _
        · intro e he
          exact mem_filter_source
            ((List.perm_insertionSort _ _).subset (List.mem_of_mem_filter he))
        · exact (List.sorted_insertionSort edgeLeDesc _).filter _
    rw [hlist]
    rfl

/-- C5 counterexample: with a dest of `2^63` the sqlite backend stores a
negative `i64` and orders it first, while the ordered-key backend orders by
the unsigned value — the two backends return differently ordered lists for
the same logical edge set and query. -/
theorem find_edges_backend_counterexample :
    find_edges_internal [⟨1, [97], 1⟩, ⟨1, [97], 2 ^ 63⟩] 1 ⟨[], .Asc, none⟩ =
        [⟨1, [97], 1⟩, ⟨1, [97], 2 ^ 63⟩] ∧
      Sqlite.find_edges [⟨1, [97], 1⟩, ⟨1, [97], 2 ^ 63⟩] 1 ⟨[], .Asc, none⟩ =
        some [⟨1, [97], 2 ^ 63⟩, ⟨1, [97], 1⟩] := by
  constructor <;> decide

theorem find_edges_backend_equiv_witness :
    Sqlite.find_edges [⟨1, [97], 2⟩, ⟨1, [98], 1⟩] 1 ⟨[], .Asc, none⟩ =
      some (find_edges_internal [⟨1, [97], 2⟩, ⟨1, [98], 1⟩] 1
        ⟨[], .Asc, none⟩) :=
  find_edges_backend_equiv [⟨1, [97], 2⟩, ⟨1, [98], 1⟩] 1 ⟨[], .Asc, none⟩
    (by decide) (by decide) (by decide) (fun c h => by simp at h)

theorem find_edges_internal_semantics_witness :
    ∃ l : List Edge,
      l.Perm (([⟨1, [97], 20⟩, ⟨1, [97], 10⟩, ⟨2, [97], 5⟩] :
          List Edge).filter fun e => e.source == 1 && nameKeep [] e) ∧
      l.Pairwise (fun a b => edgeKeyCmp (keyOf a) (keyOf b) = .lt) ∧
      find_edges_internal [⟨1, [97], 20⟩, ⟨1, [97], 10⟩, ⟨2, [97], 5⟩] 1
          ⟨[], .Asc, none⟩ =
        (l.filter (cursorKeep SortOrder.Asc none)).take MAX_EDGES :=
  find_edges_internal_semantics [⟨1, [97], 20⟩, ⟨1, [97], 10⟩, ⟨2, [97], 5⟩] 1
    ⟨[], .Asc, none⟩ (by decide)
